import Mathlib

/-!
Verification development for the depth-map-to-G-code engine in
`src/utils/python/write_gcode.py`.

The Python source is shallowly embedded over exact rationals (`ℚ`).
IEEE infinities used as sentinels by the source are embedded as the
lattice elements of `WithBot ℚ` (for the `-inf` halo of the padded
height field) and `WithTop ℚ` (for the `+inf` cells of the tool-shape
matrix outside the cutter disk).  Square roots (`hypot`, `** .5`) and
`atan2` are transcendental, so functions using them take the root
function (and the arc-direction test) as an explicit oracle parameter;
no theorem below depends on the value of the oracle beyond stated
hypotheses.  Recursion whose termination in the source depends on
run-time values (`douglas`) is embedded with an explicit fuel bound on
recursion depth.
-/

namespace WriteGcode

/-- `epsilon = 1e-5` from the module header of write_gcode.py. -/
def epsilon : ℚ := 1 / 100000

/-- `MAXINT = sys.maxsize` (64-bit), used as a finite "infinity" sentinel
by the Douglas-Peucker arc-fitting code. -/
def MAXINT : ℚ := 2 ^ 63 - 1

/-- A 3-D cut point `(x, y, z)`. -/
abbrev Pt : Type := ℚ × ℚ × ℚ

/-- The arc planes G17 (XY), G18 (XZ), G19 (YZ). -/
inductive Plane : Type
  | p17
  | p18
  | p19
deriving DecidableEq

/-- Motion words tracked by the emitter (`G0` rapid, `G1` linear). -/
inductive Word : Type
  | G0
  | G1
deriving DecidableEq

/-- Motion words produced by the `douglas` simplifier
(`"G1"`, `"G2"`, `"G3"` strings in the source). -/
inductive DWord : Type
  | d1
  | d2
  | d3
deriving DecidableEq

/-! ## Height field and swept-height evaluation

`Image_Matrix_Numpy`: the padded matrix is embedded as a total function
`ℤ → ℤ → WithBot ℚ`; `pad_w_zeros` fills the halo with `-1e1000000`,
which is IEEE `-inf`, i.e. `⊥`.  The tool-shape matrix holds
`1e100000 = +inf` (`⊤`) outside the cutter disk (`make_tool_shape`). -/

/-- IEEE float subtraction `height - tool` as it occurs in `height_calc`:
`-inf - x = -inf` and `q - inf = -inf`. -/
def fsub (a : WithBot ℚ) (b : WithTop ℚ) : WithBot ℚ :=
  WithBot.recBotCoe ⊥ (fun q => WithTop.recTopCoe ⊥ (fun r => ((q - r : ℚ) : WithBot ℚ)) b) a

/-- `Image_Matrix_Numpy.height_calc(x, y, tool)` (NumPy branch):
`d = (matrix[y:y+ts, x:x+ts] - tool.matrix).max()` where `ts = tool.width`.
The running maximum starts at `-1e100000 = -inf = ⊥`. -/
def height_calc (mat : ℤ → ℤ → WithBot ℚ) (tool : ℤ → ℤ → WithTop ℚ) (ts : ℕ)
    (x y : ℤ) : WithBot ℚ :=
  (List.range ts).foldl
    (fun d i => (List.range ts).foldl
      (fun d j => max d (fsub (mat (y + (i : ℤ)) (x + (j : ℤ))) (tool (i : ℤ) (j : ℤ)))) d)
    ⊥

/-- `Image_Matrix_Numpy.__call__(i, j) = matrix[i + t_offset, j + t_offset]`:
read the un-padded height field through the halo offset. -/
def height_at (mat : ℤ → ℤ → WithBot ℚ) (t_offset i j : ℤ) : WithBot ℚ :=
  mat (i + t_offset) (j + t_offset)

/-- The per-converter swept-height cache `self.cache`, keyed by `(x, y)`. -/
def Cache : Type := ℤ → ℤ → Option (WithBot ℚ)

/-- `Converter.get_z(x, y)`: on a cache hit return
`min(0, max(self.rd, self.cache[x, y]))`; on a miss compute
`d = height_calc(x, y, tool)`, store the raw (un-clamped) maximum in the
cache, and return `min(0.0, max(self.rd, d))`.  Returns the value
together with the updated cache. -/
def get_z (mat : ℤ → ℤ → WithBot ℚ) (tool : ℤ → ℤ → WithTop ℚ) (ts : ℕ)
    (rd : ℚ) (cache : Cache) (x y : ℤ) : WithBot ℚ × Cache :=
  match cache x y with
  | some d => (min 0 (max (rd : WithBot ℚ) d), cache)
  | none =>
      let d := height_calc mat tool ts x y
      (min 0 (max (rd : WithBot ℚ) d),
       fun x' y' => if x' = x ∧ y' = y then some d else cache x' y')

/-! ## G-code emitter (`class Gcode`) -/

/-- One line written by the emitter, structurally: a motion line carries the
optional motion word and the axis words actually present
(a missing axis word means the coordinate was coalesced away), and a plane
line is `G17`/`G18`/`G19` from `set_plane`. -/
inductive GLine : Type
  | move (w : Option Word) (x y z a : Option ℚ)
  | planeCmd (p : Plane)
deriving DecidableEq

/-- Emitter state: the fields of `Gcode.__init__` relevant to motion
emission, plus the stream of lines written so far. -/
structure GState : Type where
  lastx : Option ℚ
  lasty : Option ℚ
  lastz : Option ℚ
  lasta : Option ℚ
  lastgcode : Option Word
  cuts : List (Option ℚ × Option ℚ × ℚ)
  plane : Option Plane
  disable_arcs : Bool
  safetyheight : ℚ
  tolerance : ℚ
  out : List GLine
deriving DecidableEq

/-- `Gcode.__init__`: all last-axis fields `None` except
`self.safetyheight = self.lastz = safetyheight`; `lastgcode = None`,
empty cut queue, `plane = None`. -/
def Gcode.init (safetyheight tolerance : ℚ) (disable_arcs : Bool) : GState :=
  { lastx := none, lasty := none, lastz := some safetyheight, lasta := none
    lastgcode := none, cuts := [], plane := none
    disable_arcs := disable_arcs, safetyheight := safetyheight
    tolerance := tolerance, out := [] }

/-- `Gcode.set_plane(p)`: a no-op when arcs are disabled; otherwise record
the plane and write `G17`/`G18`/`G19` when it changes. -/
def set_plane (st : GState) (p : Plane) : GState :=
  if st.disable_arcs then st
  else if some p ≠ st.plane then
    { st with plane := some p, out := st.out ++ [GLine.planeCmd p] }
  else st

/-- `if x == None: x = self.lastx` — sparse-coordinate inheritance. -/
def inh (o l : Option ℚ) : Option ℚ :=
  match o with
  | none => l
  | some v => some v

/-- `Gcode.move_common(x, y, z, a, gcode)`: inherit missing axes, build an
axis word for every axis that differs from the previous state, return
without writing when every axis word is empty, otherwise (a) when the
motion code changes away from a previous `G0`, first write the extra line
`"G0" + xstring + ystring + " Z10.0" + astring`, then (b) write the move
with the motion word present only when the motion code changed. -/
def move_common (st : GState) (x y z a : Option ℚ) (g : Word) : GState :=
  let xi := inh x st.lastx
  let yi := inh y st.lasty
  let zi := inh z st.lastz
  let ai := inh a st.lasta
  if xi = st.lastx ∧ yi = st.lasty ∧ zi = st.lastz ∧ ai = st.lasta then st
  else
    let xf : Option ℚ := if xi = st.lastx then none else xi
    let yf : Option ℚ := if yi = st.lasty then none else yi
    let zf : Option ℚ := if zi = st.lastz then none else zi
    let af : Option ℚ := if ai = st.lasta then none else ai
    let pre : List GLine :=
      if some g ≠ st.lastgcode ∧ st.lastgcode = some Word.G0 then
        [GLine.move (some Word.G0) xf yf (some 10) af]
      else []
    let w : Option Word := if some g ≠ st.lastgcode then some g else none
    { st with
      lastx := xi, lasty := yi, lastz := zi, lasta := ai
      lastgcode := if some g ≠ st.lastgcode then some g else st.lastgcode
      out := st.out ++ pre ++ [GLine.move w xf yf zf af] }

/-- `Gcode.cut(x, y, z)`: drop the cut silently when `z > -0.01`;
otherwise inherit missing X/Y from the last queued cut (or from the last
emitted position when the queue is empty) and append `[x, y, z]` to the
pending cut queue.  In this program `z` is numeric at every call site, so
it is taken as `ℚ` (the `z is None` inheritance branch of the source is
unreachable here). -/
def cut (st : GState) (x y : Option ℚ) (z : ℚ) : GState :=
  if (-1 : ℚ) / 100 < z then st
  else
    let lx : Option ℚ := match st.cuts.getLast? with
      | some c => c.1
      | none => st.lastx
    let ly : Option ℚ := match st.cuts.getLast? with
      | some c => c.2.1
      | none => st.lasty
    { st with cuts := st.cuts ++ [(inh x lx, inh y ly, z)] }

/-! ## Tool-shape construction (`make_tool_shape`) -/

/-- The pixel radius computed by `make_tool_shape`:
`res = 1/resp; wrad = wdia/2 + rough_offset;
rad = int(ceil((wrad - resp/2) * res)); if rad < 1: rad = 1`. -/
def tool_rad_pixels (wdia resp rough_offset : ℚ) : ℤ :=
  let wrad := wdia / 2 + rough_offset
  let rad := ⌈(wrad - resp / 2) * (1 / resp)⌉
  if rad < 1 then 1 else rad

/-- The tool-matrix side `dia = 2*rad + 1` of `make_tool_shape`. -/
def tool_dia_pixels (wdia resp rough_offset : ℚ) : ℤ :=
  2 * tool_rad_pixels wdia resp rough_offset + 1

/-! ## Depth scaling of the image (`WriteGCode`)

The matrix operations `minus`/`mult` are pointwise, so the whole
normalize / depth-scale / invert sequence of `WriteGCode` acts on each
pixel independently; `a`/`b` are the matrix min/max read before
normalization and `depth = -z_cut`. -/

/-- Per-pixel value after the `WriteGCode` scaling pipeline:
normalize (skipped when `a == b`), multiply by `depth`, then negate
(invert) or subtract `depth`. -/
def field_value (normalize invert : Bool) (a b depth v : ℚ) : ℚ :=
  let v1 := if normalize then (if a ≠ b then (v - a) / (b - a) else v) else v / 255
  let v2 := v1 * depth
  if invert then -v2 else v2 - depth

/-! ## Scan converters -/

/-- `Convert_Scan_Alternating.__call__(primary, items)`: increment the
call counter, reverse the items when the (1-based) call number is odd,
and flag an entry cut only on the very first call.  The generator yields
exactly one `(flag, span)` pair; the new counter is returned alongside. -/
def alt_scan_call {α : Type} (st : ℕ) (items : List α) : ℕ × List (Bool × List α) :=
  let st1 := st + 1
  (st1, [(decide (st1 = 1), if st1 % 2 = 1 then items.reverse else items)])

/-- `Convert_Scan_Alternating.reset()`: the counter returns to 0. -/
def alt_scan_reset : ℕ := 0

/-- `Convert_Scan_Increasing.__call__`: one span, unchanged, always flagged. -/
def inc_scan_call {α : Type} (items : List α) : List (Bool × List α) :=
  [(true, items)]

/-- `Convert_Scan_Decreasing.__call__`: one span, reversed, always flagged. -/
def dec_scan_call {α : Type} (items : List α) : List (Bool × List α) :=
  [(true, items.reverse)]

/-- Successive rows dispatched through one `Convert_Scan_Alternating`
instance, as `mill_rows` does (`for flag, points in convert_scan(...)`):
the counter threads from one row to the next. -/
def alt_process {α : Type} (st : ℕ) : List (List α) → List (Bool × List α)
  | [] => []
  | r :: rs =>
    let p := alt_scan_call st r
    p.2 ++ alt_process p.1 rs

/-- The X coordinates of one row scan built by `mill_rows`:
`x = i * pixelsize + self.xoffset` for `i` over the column range. -/
def mill_row_xs (irange : List ℤ) (pixelsize xoffset : ℚ) : List ℚ :=
  irange.map fun i => (i : ℚ) * pixelsize + xoffset

/-! ## Roughing layers (`Converter.convert`) -/

/-- The sequence of layer floors `self.rd` produced by the roughing loop of
`Converter.convert` started at `r`:
`while r > m: rd = r; one_pass(); r = r - delta`, then
`if r < m + epsilon: rd = m; one_pass()`. -/
def rdSeq (delta m : ℚ) (hd : 0 < delta) (r : ℚ) : List ℚ :=
  if m < r then
    r :: rdSeq delta m hd (r - delta)
  else if r < m + epsilon then [m] else []
termination_by (⌈(r - m) / delta⌉).toNat
decreasing_by
  have hne : delta ≠ 0 := ne_of_gt hd
  have h1 : (r - delta - m) / delta = (r - m) / delta - 1 := by
    field_simp
    ring
  rw [h1, Int.ceil_sub_one]
  have h2 : 0 < ⌈(r - m) / delta⌉ := by
    have : 0 < (r - m) / delta := div_pos (by linarith) hd
    exact Int.ceil_pos.2 this
  omega

/-- The full layer-floor schedule of `Converter.convert`:
`if self.roughing_delta:` run the roughing loop from `r = -delta`,
else a single pass with `rd = self.image.min()`.  The truthiness test is
`delta ≠ 0`; under the hypothesis `0 ≤ delta` that is `0 < delta`
(a negative `roughing_delta` would make the source's while loop diverge,
so only nonnegative schedules are modelled). -/
def convert_rds (delta m : ℚ) (_h : 0 ≤ delta) : List ℚ :=
  if hd : 0 < delta then rdSeq delta m hd (-delta) else [m]

/-! ## Entry cuts -/

/-- `circ(r, b)`: the radicand `r**2 - (r-b)**2` is clamped to zero when
negative before the square root (`sq` is the square-root oracle). -/
def circ (sq : ℚ → ℚ) (r b : ℚ) : ℚ :=
  let z := r ^ 2 - (r - b) ^ 2
  sq (if z < 0 then 0 else z)

/-- The radius-shrinking lookahead loop of `ArcEntryCut.__call__`
(row case; the column case is symmetric).  `zf i` stands for the value
`conv.get_z(i, j0)` observed by the loop, `z0` for the first sample's Z.
Iteration is over the pixel offsets `di`; `break` returns, `continue`
recurses on the remaining offsets. -/
def arc_radius_aux (zf : ℤ → ℚ) (z0 pixelsize : ℚ) (i0 cx h1 : ℤ) :
    ℚ → List ℕ → ℚ
  | radius, [] => radius
  | radius, di :: rest =>
    let dx := (di : ℚ) * pixelsize
    let i := i0 + cx * (di : ℤ)
    if i < 0 ∨ h1 ≤ i then radius
    else
      let dz := zf i - z0
      if dz ≤ 0 then arc_radius_aux zf z0 pixelsize i0 cx h1 radius rest
      else if dx < dz then dx
      else
        let rad1v := (dx * dx / dz + dz) / 2
        let radius1 := if rad1v < radius then rad1v else radius
        if radius1 < dx then radius1
        else arc_radius_aux zf z0 pixelsize i0 cx h1 radius1 rest

/-- The lead-in radius of `ArcEntryCut.__call__`: start from `max_radius`
and run the lookahead over `range(1, lim)` with
`lim = int(ceil(max_radius / pixelsize))`. -/
def arc_radius_scan (zf : ℤ → ℚ) (z0 pixelsize maxr : ℚ) (i0 cx h1 : ℤ) : ℚ :=
  arc_radius_aux zf z0 pixelsize i0 cx h1 maxr
    (List.range' 1 (⌈maxr / pixelsize⌉ - 1).toNat)

/-! ## Path simplifier (`douglas` and its geometry helpers)

`hypot(a, b)` and `x ** .5` denote real square roots; they are embedded
through the oracle `sq : ℚ → ℚ` standing for the square-root function.
`arc_dir` computes with `atan2`, so it is likewise passed as an oracle
`adir`.  No theorem below constrains the oracles beyond their stated
hypotheses. -/

/-- `hypot(a, b) = sqrt(a² + b²)` through the root oracle. -/
def hypotQ (sq : ℚ → ℚ) (a b : ℚ) : ℚ :=
  sq (a ^ 2 + b ^ 2)

/-- `dist_lseg(l1, l2, p)`: distance from `p` to the segment `l1-l2`,
with the parameter `t` clamped to `[0, 1]`; the source returns
`dist2 ** .5`. -/
def dist_lseg (sq : ℚ → ℚ) (l1 l2 p : Pt) : ℚ :=
  let dx := l2.1 - l1.1
  let dy := l2.2.1 - l1.2.1
  let dz := l2.2.2 - l1.2.2
  let d2 := dx * dx + dy * dy + dz * dz
  if d2 = 0 then 0
  else
    let t0 := (dx * (p.1 - l1.1) + dy * (p.2.1 - l1.2.1) + dz * (p.2.2 - l1.2.2)) / d2
    let t1 := if t0 < 0 then 0 else t0
    let t := if 1 < t1 then 1 else t1
    let dist2 := (p.1 - l1.1 - t * dx) ^ 2 + (p.2.1 - l1.2.1 - t * dy) ^ 2
      + (p.2.2 - l1.2.2 - t * dz) ^ 2
    sq dist2

/-- `rad1(x1, y1, x2, y2, x3, y3)`: circumradius of the planar triangle,
`MAXINT` when the denominator is degenerate (`abs(den) < 1e-5`). -/
def rad1 (sq : ℚ → ℚ) (x1 y1 x2 y2 x3 y3 : ℚ) : ℚ :=
  let x12 := x1 - x2
  let y12 := y1 - y2
  let x23 := x2 - x3
  let y23 := y2 - y3
  let x31 := x3 - x1
  let y31 := y3 - y1
  let den := |x12 * y23 - x23 * y12|
  if |den| < 1 / 100000 then MAXINT
  else hypotQ sq x12 y12 * hypotQ sq x23 y23 * hypotQ sq x31 y31 / 2 / den

/-- `cent1(x1, y1, x2, y2, x3, y3)`: circumcenter via barycentric weights;
`(MAXINT, MAXINT)` when degenerate.  (The `Point` cross/dot/mag2 algebra
of the source is inlined; it is exact rational arithmetic.) -/
def cent1 (x1 y1 x2 y2 x3 y3 : ℚ) : ℚ × ℚ :=
  let den := |(x1 - x2) * (y2 - y3) - (y1 - y2) * (x2 - x3)|
  if |den| < 1 / 100000 then (MAXINT, MAXINT)
  else
    let m23 := (x2 - x3) ^ 2 + (y2 - y3) ^ 2
    let m13 := (x1 - x3) ^ 2 + (y1 - y3) ^ 2
    let m12 := (x1 - x2) ^ 2 + (y1 - y2) ^ 2
    let alpha := m23 * ((x1 - x2) * (x1 - x3) + (y1 - y2) * (y1 - y3)) / 2 / den / den
    let beta := m13 * ((x2 - x1) * (x2 - x3) + (y2 - y1) * (y2 - y3)) / 2 / den / den
    let gamma := m12 * ((x3 - x1) * (x3 - x2) + (y3 - y1) * (y3 - y2)) / 2 / den / den
    (alpha * x1 + beta * x2 + gamma * x3, alpha * y1 + beta * y2 + gamma * y3)

/-- `arc_center(plane, p1, p2, p3)`: project onto the active plane; the
source falls off the end (returns `None`) when `plane` is `None`. -/
def arc_center (plane : Option Plane) (p1 p2 p3 : Pt) : Option (ℚ × ℚ) :=
  match plane with
  | some Plane.p17 => some (cent1 p1.1 p1.2.1 p2.1 p2.2.1 p3.1 p3.2.1)
  | some Plane.p18 => some (cent1 p1.1 p1.2.2 p2.1 p2.2.2 p3.1 p3.2.2)
  | some Plane.p19 => some (cent1 p1.2.1 p1.2.2 p2.2.1 p2.2.2 p3.2.1 p3.2.2)
  | none => none

/-- `arc_rad(plane, P1, P2, P3)`: `MAXINT` when `plane is None`, otherwise
the projected circumradius. -/
def arc_rad (sq : ℚ → ℚ) (plane : Option Plane) (p1 p2 p3 : Pt) : ℚ :=
  match plane with
  | none => MAXINT
  | some Plane.p17 => rad1 sq p1.1 p1.2.1 p2.1 p2.2.1 p3.1 p3.2.1
  | some Plane.p18 => rad1 sq p1.1 p1.2.2 p2.1 p2.2.2 p3.1 p3.2.2
  | some Plane.p19 => rad1 sq p1.2.1 p1.2.2 p2.2.1 p2.2.2 p3.2.1 p3.2.2

/-- `get_pts(plane, x, y, z)`: plane projection.  The source returns
`None` for any other plane value and its callers would crash; those call
sites are unreachable in `douglas` (a `None` plane forces
`min_rad == MAXINT`), so the embedding returns `(0, 0)` there. -/
def get_pts (plane : Option Plane) (p : Pt) : ℚ × ℚ :=
  match plane with
  | some Plane.p17 => (p.1, p.2.1)
  | some Plane.p18 => (p.1, p.2.2)
  | some Plane.p19 => (p.2.1, p.2.2)
  | none => (0, 0)

/-- The `sign` helper of `one_quadrant`: magnitudes below `1e-5` count
as zero. -/
def signQ (x : ℚ) : ℤ :=
  if |x| < 1 / 100000 then 0
  else if x < 0 then -1 else 1

/-- `one_quadrant(plane, c, p1, p2, p3)`: the three points' sign pairs
around the center, with colinear-axis sentinels collapsed into a
neighboring quadrant, must form a single quadrant.  The Python set is
embedded as a deduplicated list (only membership and cardinality are
used). -/
def one_quadrant (plane : Option Plane) (c : ℚ × ℚ) (p1 p2 p3 : Pt) : Bool :=
  let q1 := get_pts plane p1
  let q2 := get_pts plane p2
  let q3 := get_pts plane p3
  let signs := ([(signQ (q1.1 - c.1), signQ (q1.2 - c.2)),
                 (signQ (q2.1 - c.1), signQ (q2.2 - c.2)),
                 (signQ (q3.1 - c.1), signQ (q3.2 - c.2))] : List (ℤ × ℤ)).dedup
  if signs.length = 1 then true
  else
    let s1 := if (1, 1) ∈ signs then
      signs.filter (fun s => s ≠ (1, 0) ∧ s ≠ (0, 1)) else signs
    let s2 := if (1, -1) ∈ s1 then
      s1.filter (fun s => s ≠ (1, 0) ∧ s ≠ (0, -1)) else s1
    let s3 := if (-1, 1) ∈ s2 then
      s2.filter (fun s => s ≠ (-1, 0) ∧ s ≠ (0, 1)) else s2
    let s4 := if (-1, -1) ∈ s3 then
      s3.filter (fun s => s ≠ (-1, 0) ∧ s ≠ (0, -1)) else s3
    decide (s4.length = 1)

/-- `arc_fmt(plane, c1, c2, p1)`: the incremental center offsets written
as `I`/`J`/`K` words (the pair of numbers of the formatted string). -/
def arc_fmt (plane : Option Plane) (c1 c2 : ℚ) (p1 : Pt) : ℚ × ℚ :=
  match plane with
  | some Plane.p17 => (c1 - p1.1, c2 - p1.2.1)
  | some Plane.p18 => (c1 - p1.1, c2 - p1.2.2)
  | some Plane.p19 => (c1 - p1.2.1, c2 - p1.2.2)
  | none => (0, 0)

/-- The in-plane deviation `abs(hypot(c1-·, c2-·) - min_rad)` of one point
from the candidate arc, as computed inside `douglas`; the source sets
`dist = MAXINT` for a `None` plane. -/
def proj_dist (sq : ℚ → ℚ) (plane : Option Plane) (c1 c2 mr : ℚ) (p : Pt) : ℚ :=
  match plane with
  | some Plane.p17 => |hypotQ sq (c1 - p.1) (c2 - p.2.1) - mr|
  | some Plane.p18 => |hypotQ sq (c1 - p.1) (c2 - p.2.2) - mr|
  | some Plane.p19 => |hypotQ sq (c1 - p.2.1) (c2 - p.2.2) - mr|
  | none => MAXINT

/-- Accumulator of the first scan loop of `douglas`:
`worst`/`worst_dist` for the chord test and `min_rad`/`max_arc` for the
arc candidate (`max_arc` starts at `-1`). -/
structure DgAcc : Type where
  worst : ℕ
  wd : ℚ
  mr : ℚ
  ma : ℤ

/-- One iteration of the scan loop of `douglas`: endpoints are skipped
(`p is l1 or p is l2`; in this program the queue entries are distinct
objects, so identity means index 0 or `n-1`); the arc-candidate update is
nested inside the `dist > worst_dist` branch exactly as in the source. -/
def dg_step (sq : ℚ → ℚ) (plane : Option Plane) (l1 l2 : Pt) (st : List Pt)
    (acc : DgAcc) (i : ℕ) : DgAcc :=
  if i = 0 ∨ i = st.length - 1 then acc
  else
    let p := st.getD i (0, 0, 0)
    let dist := dist_lseg sq l1 l2 p
    if acc.wd < dist then
      let rad := arc_rad sq plane l1 p l2
      if rad < acc.mr then ⟨i, dist, rad, (i : ℤ)⟩
      else ⟨i, dist, acc.mr, acc.ma⟩
    else acc

/-- The whole scan loop of `douglas` over `enumerate(st)`. -/
def dg_scan (sq : ℚ → ℚ) (plane : Option Plane) (l1 l2 : Pt) (st : List Pt) : DgAcc :=
  (List.range st.length).foldl (dg_step sq plane l1 l2 st) ⟨0, 0, MAXINT, -1⟩

/-- One motion record yielded by `douglas`: word, target point, and the
arc-center offsets when the record is a circular move. -/
abbrev Motion : Type := DWord × Pt × Option (ℚ × ℚ)

/-- `douglas(st, tolerance, plane, _first)` with an explicit `fuel` bound
on the recursion depth (the recursion of the source decreases the
segment length strictly in every reachable split, so
`fuel = st.length` suffices; out of fuel yields nothing).
The arc-deviation loop also computes a midpoint deviation whose value the
source never compares or stores (dead code), so it is omitted here.
With an empty queue the source would fault on `st[0]`; `flush` only calls
it on a non-empty queue, and the embedding returns `[]` there. -/
def douglasF (sq : ℚ → ℚ)
    (adir : Option Plane → ℚ × ℚ → Pt → Pt → Pt → Bool) :
    ℕ → List Pt → ℚ → Option Plane → Bool → List Motion
  | 0, _, _, _, _ => []
  | _ + 1, [], _, _, _ => []
  | _ + 1, [p], _, _, _ => [(DWord.d1, p, none)]
  | fuel + 1, p0 :: p1 :: rest, tolerance, plane, fst =>
    let st := p0 :: p1 :: rest
    let ps := p0
    let pe := st.getLastD (0, 0, 0)
    let acc := dg_scan sq plane ps pe st
    let pmax := st.getD acc.ma.toNat (0, 0, 0)
    let cent := arc_center plane ps pmax pe
    let wad :=
      if acc.mr ≠ MAXINT then
        match cent with
        | some c =>
          if one_quadrant plane c ps pmax pe then
            st.foldl (fun w p => max w (proj_dist sq plane c.1 c.2 acc.mr p)) 0
          else MAXINT
        | none => MAXINT
      else MAXINT
    if wad < tolerance ∧ wad < acc.wd then
      match cent with
      | some c =>
        let ccw0 := adir plane c ps pmax pe
        let ccw := if plane = some Plane.p18 then !ccw0 else ccw0
        [(DWord.d1, ps, none),
         (if ccw then DWord.d3 else DWord.d2, pe, some (arc_fmt plane c.1 c.2 ps))]
      | none => []
    else if tolerance < acc.wd then
      (if fst then [(DWord.d1, ps, none)] else [])
        ++ douglasF sq adir fuel (st.take (acc.worst + 1)) tolerance plane false
        ++ [(DWord.d1, st.getD acc.worst (0, 0, 0), none)]
        ++ douglasF sq adir fuel (st.drop acc.worst) tolerance plane false
        ++ (if fst then [(DWord.d1, pe, none)] else [])
    else
      if fst then [(DWord.d1, ps, none), (DWord.d1, pe, none)] else []

/-! ## Helper lemmas -/

/-- Structure of the roughing loop: from any start `r` it produces the
arithmetic sequence `r, r - delta, …` for as long as the floor stays
strictly above `m`, followed by the final snapped floor `m`
(the loop leaves `r ≤ m < m + epsilon`, so the final pass always runs). -/
theorem rdSeq_struct (delta m : ℚ) (hd : 0 < delta) (r : ℚ) :
    ∃ k : ℕ, rdSeq delta m hd r
        = (List.range k).map (fun (i : ℕ) => r - (i : ℚ) * delta) ++ [m]
      ∧ (∀ i : ℕ, i < k → m < r - (i : ℚ) * delta)
      ∧ ¬ m < r - (k : ℚ) * delta := by
  by_cases h : m < r
  case neg =>
    refine ⟨0, ?_, by omega, by simpa using h⟩
    rw [rdSeq, if_neg h, if_pos (by simp only [epsilon]; linarith)]
    rfl
  case pos =>
    obtain ⟨k, hk, hall, hlast⟩ := rdSeq_struct delta m hd (r - delta)
    refine ⟨k + 1, ?_, ?_, ?_⟩
    · rw [rdSeq, if_pos h, hk, List.range_succ_eq_map]
      simp only [List.map_cons, List.map_map, Nat.cast_zero, zero_mul, sub_zero,
        List.cons_append]
      congr 1
      congr 1
      apply List.map_congr_left
      intro i _
      simp only [Function.comp_apply, Nat.succ_eq_add_one]
      push_cast
      ring
    · intro i hi
      cases i with
      | zero => simpa using h
      | succ n =>
        have h2 := hall n (by omega)
        push_cast
        push_cast at h2
        linarith
    · push_cast
      linarith
termination_by (⌈(r - m) / delta⌉).toNat
decreasing_by
  have hne : delta ≠ 0 := ne_of_gt hd
  have h1 : (r - delta - m) / delta = (r - m) / delta - 1 := by
    field_simp
    ring
  rw [h1, Int.ceil_sub_one]
  have h2 : 0 < ⌈(r - m) / delta⌉ := by
    have h3 : 0 < (r - m) / delta := div_pos (by linarith) hd
    exact Int.ceil_pos.2 h3
  omega

/-- Row `k` of an alternating pass is call number `st + k + 1` of the
converter: the entry flag is set only when the overall call counter was
fresh, and the samples are reversed exactly on odd call numbers. -/
theorem alt_process_eq {α : Type} (rows : List (List α)) :
    ∀ st : ℕ, alt_process st rows
      = rows.mapIdx (fun k r =>
          (decide (st + k = 0), if (st + k) % 2 = 0 then r.reverse else r)) := by
  induction rows with
  | nil => intro st; simp [alt_process]
  | cons r rs ih =>
    intro st
    simp only [alt_process, alt_scan_call, List.mapIdx_cons, ih (st + 1),
      List.singleton_append]
    congr 1
    · refine congrArg₂ Prod.mk ?_ (if_congr (by omega) rfl rfl)
      simp only [decide_eq_decide]
      omega
    · have hf : (fun k (r : List α) =>
            ((decide (st + 1 + k = 0) : Bool),
              if (st + 1 + k) % 2 = 0 then r.reverse else r))
          = (fun i (r : List α) =>
              ((decide (st + (i + 1) = 0) : Bool),
                if (st + (i + 1)) % 2 = 0 then r.reverse else r)) := by
        funext k r
        have he : st + 1 + k = st + (k + 1) := by omega
        rw [he]
      rw [hf]

/-- With a `None` plane, one step of the scan loop of `douglas` never
lowers the candidate arc radius below `MAXINT`
(`arc_rad(None, …) = MAXINT` and the update test is strict). -/
theorem dg_step_mr_eq (sq : ℚ → ℚ) (l1 l2 : Pt) (st : List Pt)
    (acc : DgAcc) (i : ℕ) (h : acc.mr = MAXINT) :
    (dg_step sq none l1 l2 st acc i).mr = MAXINT := by
  unfold dg_step
  split
  · exact h
  · simp only
    split
    · rw [show arc_rad sq none l1 (st.getD i (0, 0, 0)) l2 = MAXINT from rfl]
      rw [h]
      simp
    · exact h

/-- Fold form of the previous invariant. -/
theorem dg_foldl_mr_eq (sq : ℚ → ℚ) (l1 l2 : Pt) (st : List Pt) :
    ∀ (l : List ℕ) (acc : DgAcc), acc.mr = MAXINT →
      ((l.foldl (dg_step sq none l1 l2 st) acc).mr = MAXINT) := by
  intro l
  induction l with
  | nil => intro acc h; exact h
  | cons i l ih =>
    intro acc h
    exact ih _ (dg_step_mr_eq sq l1 l2 st acc i h)

/-- With a `None` plane the scan loop of `douglas` ends with
`min_rad = MAXINT`, so no arc candidate is ever selected. -/
theorem dg_scan_mr_eq (sq : ℚ → ℚ) (l1 l2 : Pt) (st : List Pt) :
    (dg_scan sq none l1 l2 st).mr = MAXINT :=
  dg_foldl_mr_eq sq l1 l2 st _ _ rfl

/-- The lookahead loop of `ArcEntryCut` keeps the candidate radius
strictly positive: every assignment is either `dx = di * pixelsize > 0`
or `(dx²/dz + dz)/2` with `dz > 0`. -/
theorem arc_radius_aux_pos (zf : ℤ → ℚ) (z0 pixelsize : ℚ) (i0 cx h1 : ℤ)
    (hpx : 0 < pixelsize) :
    ∀ (l : List ℕ) (radius : ℚ), 0 < radius → (∀ di ∈ l, 1 ≤ di) →
      0 < arc_radius_aux zf z0 pixelsize i0 cx h1 radius l := by
  intro l
  induction l with
  | nil => intro radius hr _; simpa [arc_radius_aux] using hr
  | cons di rest ih =>
    intro radius hr hmem
    have hdi : (1 : ℚ) ≤ (di : ℚ) := by
      exact_mod_cast hmem di (List.mem_cons_self di rest)
    have hdx : 0 < (di : ℚ) * pixelsize := by nlinarith
    have hrest : ∀ d ∈ rest, 1 ≤ d := fun d hd => hmem d (List.mem_cons_of_mem di hd)
    rw [arc_radius_aux]
    split
    · exact hr
    · simp only
      split
      · exact ih radius hr hrest
      · split
        · exact hdx
        · rename_i hz hdz
          have hdzpos : 0 < zf (i0 + cx * (di : ℤ)) - z0 := lt_of_not_le hz
          have hrad1 : 0 < ((di : ℚ) * pixelsize * ((di : ℚ) * pixelsize)
              / (zf (i0 + cx * (di : ℤ)) - z0) + (zf (i0 + cx * (di : ℤ)) - z0)) / 2 := by
            have hx : 0 ≤ (di : ℚ) * pixelsize * ((di : ℚ) * pixelsize)
                / (zf (i0 + cx * (di : ℤ)) - z0) :=
              div_nonneg (by positivity) (le_of_lt hdzpos)
            linarith
          split
          · split
            · exact hrad1
            · exact ih _ hrad1 hrest
          · split
            · exact hr
            · exact ih _ hr hrest

/-! ## Claim theorems -/

/-- C1: for every pixel `(i, j)` and layer floors `rd, rd' ≤ 0`, a call of
`get_z` on a cache that misses at `(i, j)` returns
`min(0, max(rd, d))` with `d = height_calc(i, j, tool)` the raw footprint
maximum, and a second call at the same `(i, j)` — even with a different
floor `rd'`, as in a later roughing layer — returns the clamp of the same
memoized raw maximum. -/
theorem getz_clamps_and_memoizes
    (mat : ℤ → ℤ → WithBot ℚ) (tool : ℤ → ℤ → WithTop ℚ) (ts : ℕ)
    (rd rd' : ℚ) (cache : Cache) (x y : ℤ)
    (_hrd : rd ≤ 0) (_hrd' : rd' ≤ 0) (hmiss : cache x y = none) :
    (get_z mat tool ts rd cache x y).1
        = min 0 (max (rd : WithBot ℚ) (height_calc mat tool ts x y))
    ∧ (get_z mat tool ts rd' (get_z mat tool ts rd cache x y).2 x y).1
        = min 0 (max (rd' : WithBot ℚ) (height_calc mat tool ts x y)) := by
  constructor
  · simp [get_z, hmiss]
  · simp [get_z, hmiss]

/-- Witness for C1 at a concrete one-pixel instance. -/
theorem getz_clamps_and_memoizes_witness :
    (get_z (fun _ _ => ((0 : ℚ) : WithBot ℚ)) (fun _ _ => ((0 : ℚ) : WithTop ℚ)) 1
        (-1) (fun _ _ => none) 0 0).1
      = min 0 (max ((-1 : ℚ) : WithBot ℚ)
          (height_calc (fun _ _ => ((0 : ℚ) : WithBot ℚ)) (fun _ _ => ((0 : ℚ) : WithTop ℚ)) 1 0 0))
    ∧ (get_z (fun _ _ => ((0 : ℚ) : WithBot ℚ)) (fun _ _ => ((0 : ℚ) : WithTop ℚ)) 1
        (-2) (get_z (fun _ _ => ((0 : ℚ) : WithBot ℚ)) (fun _ _ => ((0 : ℚ) : WithTop ℚ)) 1
          (-1) (fun _ _ => none) 0 0).2 0 0).1
      = min 0 (max ((-2 : ℚ) : WithBot ℚ)
          (height_calc (fun _ _ => ((0 : ℚ) : WithBot ℚ)) (fun _ _ => ((0 : ℚ) : WithTop ℚ)) 1 0 0)) :=
  getz_clamps_and_memoizes _ _ 1 (-1) (-2) _ 0 0 (by norm_num) (by norm_num) rfl

/-- C3: with `rough_depth_per_pass = delta > 0` the converter runs layers
with floors `-delta, -2*delta, …` strictly above the field minimum `m`,
then one final pass whose floor is snapped to `m` exactly (the loop exit
leaves `r ≤ m < m + ε`, so the snap condition always holds); with
`delta = 1, m = -3` this is exactly the three floors `-1, -2, -3`; with
roughing disabled (`delta = 0`) a single pass runs with floor `m`. -/
theorem roughing_layer_floors :
    (∀ (delta m : ℚ) (h : 0 ≤ delta), 0 < delta →
        ∃ k : ℕ, convert_rds delta m h
            = (List.range k).map (fun (i : ℕ) => -((i : ℚ) + 1) * delta) ++ [m]
          ∧ (∀ i : ℕ, i < k → m < -((i : ℚ) + 1) * delta))
    ∧ (∀ (m : ℚ) (h : 0 ≤ (0 : ℚ)), convert_rds 0 m h = [m])
    ∧ convert_rds 1 (-3) (by norm_num) = [-1, -2, -3] := by
  refine ⟨?_, ?_, ?_⟩
  · intro delta m h hd
    obtain ⟨k, hk, hall, _⟩ := rdSeq_struct delta m hd (-delta)
    refine ⟨k, ?_, ?_⟩
    · rw [convert_rds, dif_pos hd, hk]
      congr 1
      apply List.map_congr_left
      intro i _
      ring
    · intro i hi
      have h2 := hall i hi
      nlinarith [h2]
  · intro m h
    rw [convert_rds, dif_neg (lt_irrefl 0)]
  · rw [convert_rds, dif_pos (by norm_num : (0 : ℚ) < 1)]
    rw [rdSeq]
    norm_num
    rw [rdSeq]
    norm_num
    rw [rdSeq]
    norm_num [epsilon]

/-- Witness for C3: the scenario `delta = 1, m = -3` and the
roughing-disabled case. -/
theorem roughing_layer_floors_witness :
    convert_rds 1 (-3) (by norm_num) = [-1, -2, -3]
    ∧ convert_rds 0 5 (by norm_num) = [5] :=
  ⟨roughing_layer_floors.2.2, roughing_layer_floors.2.1 5 (by norm_num)⟩

/-- C5: a cut whose Z is above `-0.01` is silently dropped: `Gcode.cut`
returns the emitter state unchanged — nothing is appended to the pending
cut queue, no line is written, and the last position and motion code are
untouched. -/
theorem cut_drop_guard (st : GState) (x y : Option ℚ) (z : ℚ)
    (h : (-1 : ℚ) / 100 < z) : cut st x y z = st := by
  rw [cut, if_pos h]

/-- Witness for C5 at a concrete state and `z = 0 > -0.01`. -/
theorem cut_drop_guard_witness :
    cut (Gcode.init 5 (1 / 1000) false) (some 1) (some 2) 0
      = Gcode.init 5 (1 / 1000) false :=
  cut_drop_guard _ (some 1) (some 2) 0 (by norm_num)

/-- C9: the alternating converter flags an entry cut only on the first
call after construction or `reset()` (counter 0), the increasing and
decreasing converters flag every span, and across an alternating row
pass only row 0 carries the flag (row `k` is call `k + 1`). -/
theorem entry_flag_first_call_only :
    (∀ (α : Type) (st : ℕ) (items : List α),
        (alt_scan_call st items).2.map Prod.fst = [decide (st = 0)])
    ∧ (∀ (α : Type) (items : List α),
        (alt_scan_call alt_scan_reset items).2.map Prod.fst = [true])
    ∧ (∀ (α : Type) (items : List α), (inc_scan_call items).map Prod.fst = [true])
    ∧ (∀ (α : Type) (items : List α), (dec_scan_call items).map Prod.fst = [true])
    ∧ (∀ (α : Type) (rows : List (List α)), alt_process 0 rows
        = rows.mapIdx (fun k r =>
            (decide (k = 0), if k % 2 = 0 then r.reverse else r))) := by
  refine ⟨?_, ?_, ?_, ?_, ?_⟩
  · intro α st items
    simp only [alt_scan_call, List.map_cons, List.map_nil]
    congr 1
    simp only [decide_eq_decide]
    omega
  · intro α items
    simp [alt_scan_call, alt_scan_reset]
  · intro α items
    simp [inc_scan_call]
  · intro α items
    simp [dec_scan_call]
  · intro α rows
    rw [alt_process_eq rows 0]
    simp

/-- C10: `circ(r, b)` is total: the radicand `r² - (r-b)²` is clamped to
zero before the root is taken (so the root argument is never negative),
the result is nonnegative whenever the root oracle is nonnegative on
nonnegative inputs, and when the radicand is negative — e.g. when the
climb height `b` exceeds the arc diameter — the function evaluates the
root at 0. -/
theorem circ_total_nonneg (sq : ℚ → ℚ) (hsq : ∀ q : ℚ, 0 ≤ q → 0 ≤ sq q) :
    (∀ r b : ℚ, 0 ≤ (if r ^ 2 - (r - b) ^ 2 < 0 then 0 else r ^ 2 - (r - b) ^ 2))
    ∧ (∀ r b : ℚ, 0 ≤ circ sq r b)
    ∧ (∀ r b : ℚ, r ^ 2 - (r - b) ^ 2 < 0 → circ sq r b = sq 0) := by
  refine ⟨?_, ?_, ?_⟩
  · intro r b
    split
    · exact le_refl 0
    · rename_i h2
      exact le_of_not_lt h2
  · intro r b
    rw [circ]
    apply hsq
    split
    · exact le_refl 0
    · rename_i h2
      exact le_of_not_lt h2
  · intro r b h2
    rw [circ]
    simp only [if_pos h2]

/-- Witness for C10 with the identity root oracle at `r = 1, b = 5`
(climb height larger than the arc diameter). -/
theorem circ_total_nonneg_witness :
    0 ≤ circ (fun q => q) 1 5 ∧ circ (fun q => q) 1 5 = (fun (q : ℚ) => q) 0 :=
  ⟨(circ_total_nonneg (fun q => q) (fun _ h => h)).2.1 1 5,
   (circ_total_nonneg (fun q => q) (fun _ h => h)).2.2 1 5 (by norm_num)⟩

/-- C4 counterexample: the first call of a fresh alternating converter is
call number 1 (odd) and it yields the samples reversed, not forward as
the claim states — so a 4-row alternating pass starts in the −X
direction, not +X. -/
theorem alternating_first_call_reverses_cex :
    (alt_scan_call 0 ([0, 1] : List ℕ)).2 = [(true, [1, 0])]
    ∧ ([1, 0] : List ℕ) ≠ [0, 1] := by
  constructor
  · rfl
  · decide

/-- C4 (amended): the converter toggles per call, but with the opposite
polarity to the claim: odd-numbered calls yield the samples reversed and
even-numbered calls yield them forward; consequently a 4-row alternating
row pass (scans built with X increasing) cuts the first row in −X, the
second in +X, the third in −X, and the fourth in +X, verifiable by the
first and last cut X of successive rows. -/
theorem alternating_direction_amended :
    (∀ (α : Type) (st : ℕ) (rows : List (List α)), alt_process st rows
        = rows.mapIdx (fun k r =>
            (decide (st + k = 0), if (st + k) % 2 = 0 then r.reverse else r)))
    ∧ (alt_process 0 (List.replicate 4 (mill_row_xs [0, 1, 2, 3] 1 0))
        = [(true, [3, 2, 1, 0]), (false, [0, 1, 2, 3]),
           (false, [3, 2, 1, 0]), (false, [0, 1, 2, 3])])
    ∧ ((let p := alt_process 0 (List.replicate 4 (mill_row_xs [0, 1, 2, 3] 1 0))
        ((p.getD 0 (false, [])).2.getLastD 0 < (p.getD 0 (false, [])).2.headI
          ∧ (p.getD 1 (false, [])).2.headI < (p.getD 1 (false, [])).2.getLastD 0
          ∧ (p.getD 2 (false, [])).2.getLastD 0 < (p.getD 2 (false, [])).2.headI
          ∧ (p.getD 3 (false, [])).2.headI < (p.getD 3 (false, [])).2.getLastD 0))) := by
  have hp : alt_process 0 (List.replicate 4 (mill_row_xs [0, 1, 2, 3] 1 0))
      = [(true, [3, 2, 1, 0]), (false, [0, 1, 2, 3]),
         (false, [3, 2, 1, 0]), (false, [0, 1, 2, 3])] := by
    norm_num [alt_process, alt_scan_call, mill_row_xs, List.replicate]
  refine ⟨?_, hp, ?_⟩
  · intro α st rows
    exact alt_process_eq rows st
  · rw [hp]
    norm_num [List.getD, List.headI, List.getLastD]

/-- C6 counterexample: at a state whose last motion code is `G0`, one
linear move with a changed X writes two lines — first the extra
`"G0 … Z10.0"` line, then the move — contradicting "no other lines are
written by a single move". -/
theorem move_common_extra_line_cex :
    (move_common
      { lastx := some 0, lasty := some 0, lastz := some 0, lasta := none
        lastgcode := some Word.G0, cuts := [], plane := none
        disable_arcs := false, safetyheight := 5, tolerance := 1 / 1000, out := [] }
      (some 1) none none none Word.G1).out
      = [GLine.move (some Word.G0) (some 1) none (some 10) none,
         GLine.move (some Word.G1) (some 1) none none none] := by
  decide

/-- C6 (amended): unchanged axes are omitted from the emitted line, the
motion word appears only when the motion code changes, and a move whose
every axis matches the previous state writes nothing and leaves the state
untouched; however, when the motion code changes while the previous code
was `G0` (and some axis changed), one extra line
`"G0" + xstring + ystring + " Z10.0" + astring` is written before the
move — so a single move writes at most these two lines and no others. -/
theorem move_common_emission_amended (st : GState) (x y z a : Option ℚ) (g : Word) :
    (inh x st.lastx = st.lastx ∧ inh y st.lasty = st.lasty
        ∧ inh z st.lastz = st.lastz ∧ inh a st.lasta = st.lasta →
      move_common st x y z a g = st)
    ∧ (¬ (inh x st.lastx = st.lastx ∧ inh y st.lasty = st.lasty
        ∧ inh z st.lastz = st.lastz ∧ inh a st.lasta = st.lasta) →
      (move_common st x y z a g).out
        = st.out
          ++ (if some g ≠ st.lastgcode ∧ st.lastgcode = some Word.G0 then
                [GLine.move (some Word.G0)
                  (if inh x st.lastx = st.lastx then none else inh x st.lastx)
                  (if inh y st.lasty = st.lasty then none else inh y st.lasty)
                  (some 10)
                  (if inh a st.lasta = st.lasta then none else inh a st.lasta)]
              else [])
          ++ [GLine.move (if some g ≠ st.lastgcode then some g else none)
                (if inh x st.lastx = st.lastx then none else inh x st.lastx)
                (if inh y st.lasty = st.lasty then none else inh y st.lasty)
                (if inh z st.lastz = st.lastz then none else inh z st.lastz)
                (if inh a st.lasta = st.lasta then none else inh a st.lasta)]) := by
  constructor
  · intro h
    rw [move_common, if_pos h]
  · intro h
    rw [move_common, if_neg h]

/-- Witness for C6 (amended): a no-op move leaves a concrete state
unchanged, and a concrete `G0 → G1` move with a changed X writes the
extra `Z10.0` line followed by the move. -/
theorem move_common_emission_amended_witness :
    move_common (Gcode.init 5 (1 / 1000) false) none none none none Word.G0
        = Gcode.init 5 (1 / 1000) false
    ∧ (move_common
        { lastx := some 0, lasty := some 0, lastz := some 0, lasta := none
          lastgcode := some Word.G0, cuts := [], plane := none
          disable_arcs := false, safetyheight := 5, tolerance := 1 / 1000, out := [] }
        (some 2) none none none Word.G1).out
      = [] ++ [GLine.move (some Word.G0) (some 2) none (some 10) none]
          ++ [GLine.move (some Word.G1) (some 2) none none none] :=
  ⟨(move_common_emission_amended (Gcode.init 5 (1 / 1000) false)
      none none none none Word.G0).1 (by decide),
   by
    have h2 := (move_common_emission_amended
      { lastx := some 0, lasty := some 0, lastz := some 0, lasta := none
        lastgcode := some Word.G0, cuts := [], plane := none
        disable_arcs := false, safetyheight := 5, tolerance := 1 / 1000, out := [] }
      (some 2) none none none Word.G1).2 (by decide)
    rw [h2]
    decide⟩

/-- C7 counterexample: with tool diameter 1 and pixel size 10 (pixel size
larger than the tool radius) `make_tool_shape` clamps the pixel radius
and produces a 3-pixel-wide tool instead of raising; and with
`normalize = true` on a constant image (`min = max = 128`, `depth = -1`)
the field value is `-127`, not the all-zero surface the claim states. -/
theorem tool_width_clamp_cex :
    tool_dia_pixels 1 10 0 = 3
    ∧ field_value true false 128 128 (-1) 128 = -127
    ∧ ((-127 : ℚ) ≠ 0) := by
  have h0 : ⌈((1 : ℚ) / 2 + 0 - 10 / 2) * (1 / 10)⌉ = 0 := by
    rw [Int.ceil_eq_zero_iff, Set.mem_Ioc]
    norm_num
  refine ⟨?_, ?_, by norm_num⟩
  · rw [tool_dia_pixels, tool_rad_pixels, h0]
    norm_num
  · rw [field_value]
    norm_num

/-- C7 (amended): when the pixel size exceeds the tool radius
(`wrad = wdia/2 + rough_offset < resp`), `make_tool_shape` raises nothing
and clamps the pixel radius to 1, yielding a 3-pixel-wide tool matrix; an
image whose min equals its max with `normalize = true` is permitted —
normalization is skipped, and after depth scaling each field value is
`v * depth - depth` (an all-zero surface only when every pixel has
`v = 1`). -/
theorem tool_width_and_normalize_amended :
    (∀ wdia resp rough_offset : ℚ, 0 < resp → wdia / 2 + rough_offset < resp →
        tool_rad_pixels wdia resp rough_offset = 1
        ∧ tool_dia_pixels wdia resp rough_offset = 3)
    ∧ (∀ a depth v : ℚ, field_value true false a a depth v = v * depth - depth) := by
  constructor
  · intro wdia resp rough_offset hresp h
    have hceil : ⌈(wdia / 2 + rough_offset - resp / 2) * (1 / resp)⌉ ≤ 1 := by
      apply Int.ceil_le.2
      push_cast
      rw [mul_one_div, div_le_one hresp]
      linarith
    have hrad : tool_rad_pixels wdia resp rough_offset = 1 := by
      rw [tool_rad_pixels]
      split
      · rfl
      · rename_i h2
        omega
    refine ⟨hrad, ?_⟩
    rw [tool_dia_pixels, hrad]
    norm_num
  · intro a depth v
    rw [field_value]
    norm_num

/-- Witness for C7 (amended) at tool diameter 1, pixel size 10. -/
theorem tool_width_and_normalize_amended_witness :
    tool_rad_pixels 1 10 0 = 1 ∧ tool_dia_pixels 1 10 0 = 3 :=
  tool_width_and_normalize_amended.1 1 10 0 (by norm_num) (by norm_num)

/-- With a `None` plane (arcs disabled), every motion record produced by
`douglas` at any fuel is a straight `G1` with no arc center. -/
theorem douglas_none_aux (sq : ℚ → ℚ)
    (adir : Option Plane → ℚ × ℚ → Pt → Pt → Pt → Bool) :
    ∀ (fuel : ℕ) (st : List Pt) (tolerance : ℚ) (fst : Bool),
      tolerance < MAXINT →
      ∀ mo ∈ douglasF sq adir fuel st tolerance none fst,
        mo.1 = DWord.d1 ∧ mo.2.2 = none := by
  intro fuel
  induction fuel with
  | zero => intro st tol fst _ mo hmo; simp [douglasF] at hmo
  | succ fuel ih =>
    intro st tol fst htol mo hmo
    match st with
    | [] => simp [douglasF] at hmo
    | [p] =>
      simp only [douglasF, List.mem_singleton] at hmo
      subst hmo
      exact ⟨rfl, rfl⟩
    | p0 :: p1 :: rest =>
      rw [douglasF] at hmo
      have hmr := dg_scan_mr_eq sq p0 ((p0 :: p1 :: rest).getLastD (0, 0, 0))
        (p0 :: p1 :: rest)
      simp only [hmr, ne_eq, not_true_eq_false, if_false, ite_self] at hmo
      have hwad : ¬ (MAXINT < tol ∧ MAXINT
          < (dg_scan sq none p0 ((p0 :: p1 :: rest).getLastD (0, 0, 0))
              (p0 :: p1 :: rest)).wd) := by
        intro hc
        exact absurd hc.1 (not_lt.2 (le_of_lt htol))
      rw [if_neg hwad] at hmo
      by_cases hrec : tol
          < (dg_scan sq none p0 ((p0 :: p1 :: rest).getLastD (0, 0, 0))
              (p0 :: p1 :: rest)).wd
      case pos =>
        rw [if_pos hrec] at hmo
        simp only [List.mem_append, List.mem_singleton] at hmo
        rcases hmo with ((((h | h) | h) | h) | h)
        · rcases fst with _ | _
          · simp at h
          · simp at h
            subst h
            exact ⟨rfl, rfl⟩
        · exact ih _ _ _ htol mo h
        · subst h
          exact ⟨rfl, rfl⟩
        · exact ih _ _ _ htol mo h
        · rcases fst with _ | _
          · simp at h
          · simp at h
            subst h
            exact ⟨rfl, rfl⟩
      case neg =>
        rw [if_neg hrec] at hmo
        rcases fst with _ | _
        · simp at hmo
        · simp at hmo
          rcases hmo with h | h
          · subst h
            exact ⟨rfl, rfl⟩
          · subst h
            exact ⟨rfl, rfl⟩

/-- C8: with arcs disabled the emitter's plane stays `None`
(`set_plane` is a no-op and the initial plane is `None`), and `douglas`
over any cut-queue content with a `None` plane yields only straight `G1`
records and never a `G2`/`G3`; moreover a degenerate (colinear) triangle
with `den < 1e-5` gets radius `MAXINT` and thus never becomes the arc
candidate (`rad < min_rad` is strict and `min_rad ≤ MAXINT`), so it never
enters the arc branch. -/
theorem disable_arcs_only_g1 :
    (∀ (sq : ℚ → ℚ) (adir : Option Plane → ℚ × ℚ → Pt → Pt → Pt → Bool)
        (fuel : ℕ) (st : List Pt) (tolerance : ℚ) (fst : Bool),
        tolerance < MAXINT →
        ∀ mo ∈ douglasF sq adir fuel st tolerance none fst,
          mo.1 = DWord.d1 ∧ mo.2.2 = none)
    ∧ (∀ (safetyheight tolerance : ℚ) (da : Bool),
        (Gcode.init safetyheight tolerance da).plane = none)
    ∧ (∀ (st : GState) (p : Plane), st.disable_arcs = true →
        (set_plane st p).plane = st.plane)
    ∧ (∀ (sq : ℚ → ℚ) (x1 y1 x2 y2 x3 y3 : ℚ),
        |(x1 - x2) * (y2 - y3) - (x2 - x3) * (y1 - y2)| < 1 / 100000 →
          rad1 sq x1 y1 x2 y2 x3 y3 = MAXINT
          ∧ ∀ mr : ℚ, mr ≤ MAXINT → ¬ rad1 sq x1 y1 x2 y2 x3 y3 < mr) := by
  refine ⟨douglas_none_aux, ?_, ?_, ?_⟩
  · intro safetyheight tolerance da
    rfl
  · intro st p h
    rw [set_plane, if_pos h]
  · intro sq x1 y1 x2 y2 x3 y3 h
    have habs : |(|(x1 - x2) * (y2 - y3) - (x2 - x3) * (y1 - y2)|)| < 1 / 100000 := by
      rw [abs_abs]
      exact h
    have hval : rad1 sq x1 y1 x2 y2 x3 y3 = MAXINT := by
      rw [rad1, if_pos habs]
    refine ⟨hval, ?_⟩
    intro mr hmr hcon
    rw [hval] at hcon
    exact absurd hmr (not_le.2 hcon)

/-- Witness for C8: on three colinear concrete points with `tolerance`
below `MAXINT`, the first simplified record is a plain `G1` without an
arc center. -/
theorem disable_arcs_only_g1_witness :
    ((DWord.d1, ((0 : ℚ), (0 : ℚ), (0 : ℚ)),
        (none : Option (ℚ × ℚ))) : Motion).1 = DWord.d1
    ∧ ((DWord.d1, ((0 : ℚ), (0 : ℚ), (0 : ℚ)),
        (none : Option (ℚ × ℚ))) : Motion).2.2 = none :=
  disable_arcs_only_g1.1 (fun q => q) (fun _ _ _ _ _ => true) 1
    [(0, 0, 0)] (1 / 1000) true
    (by rw [MAXINT]; norm_num)
    (DWord.d1, ((0 : ℚ), (0 : ℚ), (0 : ℚ)), none)
    (by simp [douglasF])

/-- C2: the bounds on emitted cut Z values, assembled from the invariants
that produce them: (1) the cut queue only ever receives Z values that the
`z > -0.01` guard admits, so every queued Z is `≤ 0`; (2) the swept
height is clamped into `[rd, 0]`, so every mill-loop cut Z satisfies
`rd ≤ Z ≤ 0` (stronger than the claimed `Z ≥ rd - ε`); (3) every layer
floor of the schedule is `≥ m`, the field minimum; (4) with
`normalize = true`, `invert = false` and `depth = z_cut ≥ 0`, every field
value lies in `[-z_cut, 0]`, hence `m ≥ -z_cut` and every mill cut Z is
`≥ -z_cut - ε`; (5) the arc entry cut's climb start
`z1 = min(p1.z + radius, safetyheight)` has a strictly positive radius
and stays `≥ rd` (its cut is queued through the same guard, so conjunct
(1) keeps it `≤ 0` as well). -/
theorem cut_z_bounds_invariant :
    (∀ (st : GState) (x y : Option ℚ) (z : ℚ),
        (∀ c ∈ st.cuts, c.2.2 ≤ 0) → ∀ c ∈ (cut st x y z).cuts, c.2.2 ≤ 0)
    ∧ (∀ (mat : ℤ → ℤ → WithBot ℚ) (tool : ℤ → ℤ → WithTop ℚ) (ts : ℕ)
        (rd : ℚ) (cache : Cache) (x y : ℤ), rd ≤ 0 →
        (rd : WithBot ℚ) ≤ (get_z mat tool ts rd cache x y).1
          ∧ (get_z mat tool ts rd cache x y).1 ≤ 0)
    ∧ (∀ (delta m : ℚ) (h : 0 ≤ delta) (rd : ℚ),
        rd ∈ convert_rds delta m h → m ≤ rd)
    ∧ (∀ a b depth v : ℚ, 0 ≤ depth → a ≤ v → v ≤ b → a < b →
        -depth ≤ field_value true false a b depth v
          ∧ field_value true false a b depth v ≤ 0)
    ∧ (∀ (zf : ℤ → ℚ) (z0 pixelsize maxr : ℚ) (i0 cx h1 : ℤ),
        0 < pixelsize → 0 < maxr →
          0 < arc_radius_scan zf z0 pixelsize maxr i0 cx h1
          ∧ ∀ rd safety p1z : ℚ, rd ≤ p1z → rd ≤ 0 → 0 ≤ safety →
              rd ≤ min (p1z + arc_radius_scan zf z0 pixelsize maxr i0 cx h1) safety) := by
  refine ⟨?_, ?_, ?_, ?_, ?_⟩
  · intro st x y z hall c hc
    rw [cut] at hc
    split at hc
    · exact hall c hc
    · simp only [List.mem_append, List.mem_singleton] at hc
      rcases hc with hc | hc
      · exact hall c hc
      · subst hc
        simp only
        rename_i hz
        have := le_of_not_lt hz
        linarith
  · intro mat tool ts rd cache x y hrd
    have hbounds : ∀ d : WithBot ℚ,
        (rd : WithBot ℚ) ≤ min 0 (max (rd : WithBot ℚ) d)
          ∧ min 0 (max (rd : WithBot ℚ) d) ≤ 0 := by
      intro d
      constructor
      · apply le_min
        · exact_mod_cast hrd
        · exact le_max_left _ _
      · exact min_le_left _ _
    rw [get_z]
    cases hc : cache x y with
    | some d => simpa using hbounds d
    | none => simpa using hbounds (height_calc mat tool ts x y)
  · intro delta m h rd hmem
    rw [convert_rds] at hmem
    split at hmem
    · rename_i hd
      obtain ⟨k, hk, hall, _⟩ := rdSeq_struct delta m hd (-delta)
      rw [hk] at hmem
      simp only [List.mem_append, List.mem_singleton, List.mem_map,
        List.mem_range] at hmem
      rcases hmem with ⟨i, hi, hrd⟩ | hrd
      · subst hrd
        exact le_of_lt (hall i hi)
      · exact le_of_eq hrd.symm
    · simp only [List.mem_singleton] at hmem
      exact le_of_eq hmem.symm
  · intro a b depth v hdep hav hvb hab
    have hba : 0 < b - a := by linarith
    have h01 : 0 ≤ (v - a) / (b - a) ∧ (v - a) / (b - a) ≤ 1 := by
      constructor
      · exact div_nonneg (by linarith) (le_of_lt hba)
      · rw [div_le_one hba]
        linarith
    rw [field_value, if_pos (ne_of_lt hab)]
    simp only [Bool.false_eq_true, if_false, if_true]
    constructor
    · nlinarith [h01.1, h01.2]
    · nlinarith [h01.1, h01.2]
  · intro zf z0 pixelsize maxr i0 cx h1 hpx hmaxr
    have hpos : 0 < arc_radius_scan zf z0 pixelsize maxr i0 cx h1 := by
      rw [arc_radius_scan]
      apply arc_radius_aux_pos zf z0 pixelsize i0 cx h1 hpx _ maxr hmaxr
      intro di hdi
      exact (List.mem_range'_1.1 hdi).1
    refine ⟨hpos, ?_⟩
    intro rd safety p1z hrp hr0 hs
    apply le_min
    · linarith
    · linarith

/-- Witness for C2 at concrete instances of each conjunct: the Z just
queued at a fresh emitter is `≤ 0`; a concrete swept height is `≥ rd`;
the floor `-1` of the schedule for `delta = 1, m = -3` is `≥ m`; a
concrete normalized field value is `≥ -z_cut`; a concrete arc entry
radius is positive. -/
theorem cut_z_bounds_invariant_witness :
    ((some 1, some 1, (-2 : ℚ)) : Option ℚ × Option ℚ × ℚ).2.2 ≤ 0
    ∧ ((-1 : ℚ) : WithBot ℚ)
        ≤ (get_z (fun _ _ => ((0 : ℚ) : WithBot ℚ)) (fun _ _ => ((0 : ℚ) : WithTop ℚ)) 1
            (-1) (fun _ _ => none) 0 0).1
    ∧ (-3 : ℚ) ≤ -1
    ∧ -(1 : ℚ) ≤ field_value true false 0 255 1 128
    ∧ 0 < arc_radius_scan (fun _ => 0) 0 1 (1 / 8) 0 1 4 := by
  refine ⟨?_, ?_, ?_, ?_, ?_⟩
  · exact cut_z_bounds_invariant.1 (Gcode.init 5 (1 / 1000) false)
      (some 1) (some 1) (-2) (by simp [Gcode.init])
      (some 1, some 1, (-2 : ℚ))
      (by rw [cut, if_neg (by norm_num)]; simp [Gcode.init, inh])
  · exact (cut_z_bounds_invariant.2.1 (fun _ _ => ((0 : ℚ) : WithBot ℚ))
      (fun _ _ => ((0 : ℚ) : WithTop ℚ)) 1 (-1) (fun _ _ => none) 0 0 (by norm_num)).1
  · exact cut_z_bounds_invariant.2.2.1 1 (-3) (by norm_num) (-1)
      (by
        rw [convert_rds, dif_pos (by norm_num : (0 : ℚ) < 1), rdSeq]
        norm_num)
  · exact (cut_z_bounds_invariant.2.2.2.1 0 255 1 128 (by norm_num) (by norm_num)
      (by norm_num) (by norm_num)).1
  · exact (cut_z_bounds_invariant.2.2.2.2 (fun _ => 0) 0 1 (1 / 8) 0 1 4
      (by norm_num) (by norm_num)).1

end WriteGcode
